import Mathlib

/-!
# Verification of the map / group-by-key / reduce engine (`src/mapreduce.c`)

Shallow embedding of the single-file C map-reduce engine.  C strings are
modelled by their logical content: the list of (non-null) bytes that precede
the terminator.  The fixed key/value capacity macros `MAX_KEY_SIZE` and
`MAX_VALUE_SIZE` live in `interface.h`, which is not part of the sources;
they are kept as parameters (`maxK`, `maxV`) throughout.
-/

/-- A C string's logical content: the bytes before the null terminator. -/
abbrev Str := List Nat

/-- Embedding of the C library function `strcmp` on logical string contents,
sign-normalised to `-1 / 0 / 1` (`qsort` and the engine only inspect the
sign).  An exhausted string compares below any longer one because its
terminator byte `0` is smaller than any content byte. -/
def strcmp : Str → Str → Int
  | [], [] => 0
  | [], _ :: _ => -1
  | _ :: _, [] => 1
  | a :: as, b :: bs => if a < b then -1 else if b < a then 1 else strcmp as bs

theorem strcmp_nil_le (b : Str) : strcmp [] b ≤ 0 := by
  cases b <;> simp [strcmp]

theorem strcmp_self (a : Str) : strcmp a a = 0 := by
  induction a with
  | nil => rfl
  | cons x as ih => simp [strcmp, ih]

theorem strcmp_eq_zero_iff : ∀ {a b : Str}, strcmp a b = 0 ↔ a = b
  | [], [] => by simp [strcmp]
  | [], _ :: _ => by simp [strcmp]
  | _ :: _, [] => by simp [strcmp]
  | x :: as, y :: bs => by
    simp only [strcmp]
    split_ifs with h1 h2
    · simp; omega
    · simp; omega
    · have hxy : x = y := by omega
      simp [hxy, strcmp_eq_zero_iff]

theorem strcmp_neg : ∀ (a b : Str), strcmp b a = -strcmp a b
  | [], [] => by simp [strcmp]
  | [], _ :: _ => by simp [strcmp]
  | _ :: _, [] => by simp [strcmp]
  | x :: as, y :: bs => by
    simp only [strcmp]
    split_ifs <;> first
      | omega
      | exact strcmp_neg as bs

theorem strcmp_le_trans :
    ∀ {a b c : Str}, strcmp a b ≤ 0 → strcmp b c ≤ 0 → strcmp a c ≤ 0
  | [], _, c, _, _ => strcmp_nil_le c
  | _ :: _, [], _, h1, _ => by simp [strcmp] at h1
  | _ :: _, _ :: _, [], _, h2 => by simp [strcmp] at h2
  | x :: as, y :: bs, z :: cs, h1, h2 => by
    simp only [strcmp] at h1 h2 ⊢
    split_ifs at h1 h2 ⊢ <;> try omega
    all_goals exact strcmp_le_trans h1 h2

theorem strcmp_le_total (a b : Str) : strcmp a b ≤ 0 ∨ strcmp b a ≤ 0 := by
  rcases le_or_lt (strcmp a b) 0 with h | h
  · exact Or.inl h
  · right
    rw [strcmp_neg a b]
    omega

/-- Strict byte-wise lexicographic order on string contents, as decided by a
negative `strcmp` result. -/
def strLt (a b : Str) : Prop := strcmp a b < 0

theorem strLt_of_le_of_ne {a b : Str} (hle : strcmp a b ≤ 0) (hne : a ≠ b) :
    strLt a b := by
  have := (strcmp_eq_zero_iff (a := a) (b := b)).not.mpr hne
  unfold strLt
  omega

/-- Embedding of `kv_pair_t`: one buffered pair (logical contents of the
`key` and `value` character arrays). -/
structure kv_pair_t where
  key : Str
  value : Str
deriving DecidableEq, Repr

/-- Embedding of the `qsort` comparator `cmp_kv`: compares two buffered
pairs by `strcmp` on their keys. -/
def cmp_kv (a b : kv_pair_t) : Int := strcmp a.key b.key

instance : IsTotal kv_pair_t (fun a b => cmp_kv a b ≤ 0) :=
  ⟨fun a b => strcmp_le_total a.key b.key⟩

instance : IsTrans kv_pair_t (fun a b => cmp_kv a b ≤ 0) :=
  ⟨fun _ _ _ hab hbc => strcmp_le_trans hab hbc⟩

/-- The sort performed by `qsort(inter_kvs, ..., cmp_kv)` (and again on the
final buffer): a comparison sort ascending under `cmp_kv`.  `qsort` fixes no
particular algorithm, so the embedding uses a concrete comparison sort. -/
def sortKV (l : List kv_pair_t) : List kv_pair_t :=
  l.insertionSort (fun a b => cmp_kv a b ≤ 0)

/-- Embedding of `struct mr_out_kv` as built by the group-by-key scan and by
the packer: a key, the value sequence, and the stored `count` field. -/
structure mr_out_kv where
  key : Str
  value : List Str
  count : Nat
deriving DecidableEq, Repr

/-- Embedding of the group-by-key scan of `mr_exec` (lines 165-190): walk
the sorted buffer, start a group at position `i`, extend it while
`strcmp(inter_kvs[j].key, inter_kvs[i].key) == 0`, record the `j - i`
values, and continue from `j`. -/
def groupKV : List kv_pair_t → List mr_out_kv
  | [] => []
  | p :: rest =>
    ⟨p.key,
     p.value :: (rest.takeWhile (fun q => decide (strcmp q.key p.key = 0))).map kv_pair_t.value,
     (rest.takeWhile (fun q => decide (strcmp q.key p.key = 0))).length + 1⟩ ::
      groupKV (rest.dropWhile (fun q => decide (strcmp q.key p.key = 0)))
termination_by l => l.length
decreasing_by
  simp only [List.length_cons]
  have := (List.dropWhile_sublist (l := rest)
    (fun q => decide (strcmp q.key p.key = 0))).length_le
  omega

theorem sortKV_perm (l : List kv_pair_t) : (sortKV l).Perm l :=
  List.perm_insertionSort _ l

theorem sortKV_sorted (l : List kv_pair_t) :
    (sortKV l).Pairwise (fun a b => cmp_kv a b ≤ 0) :=
  List.sorted_insertionSort _ l

theorem strLt_ne {a b : Str} (h : strLt a b) : a ≠ b := by
  intro he
  subst he
  simp [strLt, strcmp_self] at h

theorem strLt_le_trans {a b c : Str} (h1 : strLt a b) (h2 : strcmp b c ≤ 0) :
    strLt a c := by
  have hle : strcmp a c ≤ 0 := strcmp_le_trans (le_of_lt h1) h2
  rcases lt_or_eq_of_le hle with h | h
  · exact h
  · exfalso
    have he : a = c := strcmp_eq_zero_iff.mp h
    subst he
    have := strcmp_neg a b
    unfold strLt at h1
    omega

theorem dropWhile_head_false {α : Type} (p : α → Bool) :
    ∀ (l : List α) (a : α) (l' : List α), l.dropWhile p = a :: l' → p a = false := by
  intro l
  induction l with
  | nil => intro a l' h; simp [List.dropWhile] at h
  | cons x xs ih =>
    intro a l' h
    rw [List.dropWhile_cons] at h
    by_cases hx : p x
    · rw [if_pos hx] at h
      exact ih a l' h
    · rw [if_neg hx] at h
      cases h
      simpa using hx

/-- In a buffer sorted by `cmp_kv`, everything the grouping scan drops past
the current run has a strictly larger key than the run's key. -/
theorem sorted_dropWhile_strLt (p : kv_pair_t) (rest : List kv_pair_t)
    (hs : (p :: rest).Pairwise (fun a b => cmp_kv a b ≤ 0)) :
    ∀ q ∈ rest.dropWhile (fun q => decide (strcmp q.key p.key = 0)),
      strLt p.key q.key := by
  intro q hq
  rw [List.pairwise_cons] at hs
  have hsub := List.dropWhile_sublist (l := rest)
    (fun q => decide (strcmp q.key p.key = 0))
  match hdd : rest.dropWhile (fun q => decide (strcmp q.key p.key = 0)) with
  | [] => rw [hdd] at hq; cases hq
  | h :: d' =>
    rw [hdd] at hq hsub
    have hhead : h.key ≠ p.key := by
      have := dropWhile_head_false _ rest h d' hdd
      simp only [decide_eq_false_iff_not] at this
      exact fun he => this (he ▸ strcmp_self p.key)
    have hph : strLt p.key h.key :=
      strLt_of_le_of_ne (hs.1 h (hsub.subset (List.mem_cons_self h d'))) (Ne.symm hhead)
    rcases List.mem_cons.mp hq with rfl | hq'
    · exact hph
    · have hd : (h :: d').Pairwise (fun a b => cmp_kv a b ≤ 0) :=
        List.Pairwise.sublist hsub hs.2
      rw [List.pairwise_cons] at hd
      exact strLt_le_trans hph (hd.1 q hq')

/-- Every group key produced by the scan is the key of some buffered pair. -/
theorem groupKV_key_mem :
    ∀ (s : List kv_pair_t), ∀ g ∈ groupKV s, ∃ q ∈ s, q.key = g.key := by
  intro s
  induction s using groupKV.induct with
  | case1 => intro g hg; rw [groupKV] at hg; cases hg
  | case2 p rest ih =>
    intro g hg
    rw [groupKV] at hg
    rcases List.mem_cons.mp hg with rfl | hg'
    · exact ⟨p, List.mem_cons_self p rest, rfl⟩
    · obtain ⟨q, hq, hk⟩ := ih g hg'
      exact ⟨q, List.mem_cons_of_mem p
        ((List.dropWhile_sublist _).subset hq), hk⟩

/-- Every buffered pair's key is the key of some group produced by the scan. -/
theorem mem_key_groupKV :
    ∀ (s : List kv_pair_t), ∀ q ∈ s, ∃ g ∈ groupKV s, g.key = q.key := by
  intro s
  induction s using groupKV.induct with
  | case1 => intro q hq; cases hq
  | case2 p rest ih =>
    intro q hq
    rw [groupKV]
    rcases List.mem_cons.mp hq with rfl | hq'
    · exact ⟨_, List.mem_cons_self _ _, rfl⟩
    · have hra := List.takeWhile_append_dropWhile
        (fun q : kv_pair_t => decide (strcmp q.key p.key = 0)) rest
      rw [← hra] at hq'
      rcases List.mem_append.mp hq' with ht | hd
      · refine ⟨_, List.mem_cons_self _ _, ?_⟩
        have := List.mem_takeWhile_imp ht
        simp only [decide_eq_true_eq] at this
        exact (strcmp_eq_zero_iff.mp this).symm
      · obtain ⟨g, hg, hk⟩ := ih q hd
        exact ⟨g, List.mem_cons_of_mem _ hg, hk⟩

/-- The stored `count` field of every group equals the length of its value
sequence. -/
theorem groupKV_count_eq_length :
    ∀ (s : List kv_pair_t), ∀ g ∈ groupKV s, g.count = g.value.length := by
  intro s
  induction s using groupKV.induct with
  | case1 => intro g hg; rw [groupKV] at hg; cases hg
  | case2 p rest ih =>
    intro g hg
    rw [groupKV] at hg
    rcases List.mem_cons.mp hg with rfl | hg'
    · simp
    · exact ih g hg'

/-- Every pair the scan gathers into the current run has the run's key. -/
theorem takeWhile_key_eq (p : kv_pair_t) (rest : List kv_pair_t) :
    ∀ q ∈ rest.takeWhile (fun q => decide (strcmp q.key p.key = 0)),
      q.key = p.key := by
  intro q hq
  have := List.mem_takeWhile_imp hq
  simp only [decide_eq_true_eq] at this
  exact strcmp_eq_zero_iff.mp this

/-- On a key-sorted buffer the grouping scan emits groups in strictly
ascending byte-wise lexicographic key order. -/
theorem groupKV_pairwise :
    ∀ (s : List kv_pair_t), s.Pairwise (fun a b => cmp_kv a b ≤ 0) →
    (groupKV s).Pairwise (fun g1 g2 => strLt g1.key g2.key) := by
  intro s
  induction s using groupKV.induct with
  | case1 => intro _; rw [groupKV]; exact List.Pairwise.nil
  | case2 p rest ih =>
    intro hs
    rw [groupKV, List.pairwise_cons]
    constructor
    · intro g hg
      obtain ⟨q, hq, hk⟩ := groupKV_key_mem _ g hg
      have hlt := sorted_dropWhile_strLt p rest hs q hq
      rw [hk] at hlt
      exact hlt
    · exact ih (List.Pairwise.sublist (List.dropWhile_sublist _)
        (List.pairwise_cons.mp hs).2)

/-- On a key-sorted buffer the number of groups the scan emits equals the
number of distinct keys in the buffer. -/
theorem groupKV_length :
    ∀ (s : List kv_pair_t), s.Pairwise (fun a b => cmp_kv a b ≤ 0) →
    (groupKV s).length = (s.map kv_pair_t.key).toFinset.card := by
  intro s
  induction s using groupKV.induct with
  | case1 => intro _; rw [groupKV]; simp
  | case2 p rest ih =>
    intro hs
    rw [groupKV]
    have hra := List.takeWhile_append_dropWhile
      (fun q : kv_pair_t => decide (strcmp q.key p.key = 0)) rest
    have hset : ((p :: rest).map kv_pair_t.key).toFinset
        = insert p.key
          (((rest.dropWhile (fun q => decide (strcmp q.key p.key = 0))).map
            kv_pair_t.key).toFinset) := by
      ext a
      simp only [List.map_cons, List.toFinset_cons, Finset.mem_insert,
        List.mem_toFinset, List.mem_map]
      constructor
      · rintro (rfl | ⟨q, hq, rfl⟩)
        · exact Or.inl rfl
        · rw [← hra] at hq
          rcases List.mem_append.mp hq with ht | hd
          · exact Or.inl (takeWhile_key_eq p rest q ht)
          · exact Or.inr ⟨q, hd, rfl⟩
      · rintro (rfl | ⟨q, hq, rfl⟩)
        · exact Or.inl rfl
        · exact Or.inr ⟨q, (List.dropWhile_sublist _).subset hq, rfl⟩
    have hnot : p.key ∉
        (((rest.dropWhile (fun q => decide (strcmp q.key p.key = 0))).map
          kv_pair_t.key).toFinset) := by
      simp only [List.mem_toFinset, List.mem_map, not_exists]
      rintro q ⟨hq, hk⟩
      exact strLt_ne (sorted_dropWhile_strLt p rest hs q hq) hk.symm
    rw [hset, Finset.card_insert_of_not_mem hnot, List.length_cons,
      ih (List.Pairwise.sublist (List.dropWhile_sublist _)
        (List.pairwise_cons.mp hs).2)]

/-- On a key-sorted buffer, each emitted group carries exactly the values of
the pairs bearing its key (in buffer order), and its stored `count` equals
the number of such pairs. -/
theorem groupKV_count_filter :
    ∀ (s : List kv_pair_t), s.Pairwise (fun a b => cmp_kv a b ≤ 0) →
    ∀ g ∈ groupKV s,
      g.value = (s.filter (fun q => decide (q.key = g.key))).map kv_pair_t.value ∧
      g.count = s.countP (fun q => decide (q.key = g.key)) := by
  intro s
  induction s using groupKV.induct with
  | case1 => intro _ g hg; rw [groupKV] at hg; cases hg
  | case2 p rest ih =>
    intro hs g hg
    have hra := List.takeWhile_append_dropWhile
      (fun q : kv_pair_t => decide (strcmp q.key p.key = 0)) rest
    have hd_sorted :
        ((rest.dropWhile (fun q => decide (strcmp q.key p.key = 0)))).Pairwise
          (fun a b => cmp_kv a b ≤ 0) :=
      List.Pairwise.sublist (List.dropWhile_sublist _)
        (List.pairwise_cons.mp hs).2
    rw [groupKV] at hg
    rcases List.mem_cons.mp hg with rfl | hg'
    · -- the head group: key p.key, values p :: run
      have hkey : (⟨p.key,
          p.value :: (rest.takeWhile (fun q => decide (strcmp q.key p.key = 0))).map kv_pair_t.value,
          (rest.takeWhile (fun q => decide (strcmp q.key p.key = 0))).length + 1⟩ :
          mr_out_kv).key = p.key := rfl
      rw [hkey]
      have hft : (rest.takeWhile (fun q => decide (strcmp q.key p.key = 0))).filter
          (fun q => decide (q.key = p.key))
          = rest.takeWhile (fun q => decide (strcmp q.key p.key = 0)) :=
        List.filter_eq_self.mpr (fun q hq => by
          simp only [decide_eq_true_eq]
          exact takeWhile_key_eq p rest q hq)
      have hfd : (rest.dropWhile (fun q => decide (strcmp q.key p.key = 0))).filter
          (fun q => decide (q.key = p.key)) = [] :=
        List.filter_eq_nil_iff.mpr (fun q hq => by
          simp only [decide_eq_true_eq]
          exact fun he =>
            strLt_ne (sorted_dropWhile_strLt p rest hs q hq) he.symm)
      have hfilter : (p :: rest).filter (fun q => decide (q.key = p.key))
          = p :: rest.takeWhile (fun q => decide (strcmp q.key p.key = 0)) := by
        rw [List.filter_cons_of_pos (by simp)]
        conv_lhs => rw [← hra]
        rw [List.filter_append, hft, hfd, List.append_nil]
      constructor
      · rw [hfilter]
        simp
      · have : (p :: rest).countP (fun q => decide (q.key = p.key))
            = ((p :: rest).filter (fun q => decide (q.key = p.key))).length := by
          rw [List.countP_eq_length_filter]
        rw [this, hfilter]
        simp
    · -- a later group: its key is unrelated to the run's key
      obtain ⟨hval, hcnt⟩ := ih hd_sorted g hg'
      obtain ⟨q0, hq0, hk0⟩ := groupKV_key_mem _ g hg'
      have hne : p.key ≠ g.key := by
        rw [← hk0]
        exact strLt_ne (sorted_dropWhile_strLt p rest hs q0 hq0)
      have hft : (rest.takeWhile (fun q => decide (strcmp q.key p.key = 0))).filter
          (fun q => decide (q.key = g.key)) = [] :=
        List.filter_eq_nil_iff.mpr (fun q hq => by
          simp only [decide_eq_true_eq]
          rw [takeWhile_key_eq p rest q hq]
          exact hne)
      have hfilter : (p :: rest).filter (fun q => decide (q.key = g.key))
          = (rest.dropWhile (fun q => decide (strcmp q.key p.key = 0))).filter
              (fun q => decide (q.key = g.key)) := by
        rw [List.filter_cons_of_neg (by simpa using hne)]
        conv_lhs => rw [← hra]
        rw [List.filter_append, hft, List.nil_append]
      refine ⟨by rw [hfilter]; exact hval, ?_⟩
      rw [List.countP_eq_length_filter, hfilter,
        ← List.countP_eq_length_filter]
      exact hcnt

/-- Embedding of the pack step of `mr_exec` (lines 225-241): sort the final
buffer with `cmp_kv` and turn every entry into one output record with a
single-element value sequence and `count = 1`. -/
def packOutput (fs : List kv_pair_t) : List mr_out_kv :=
  (sortKV fs).map (fun p => ⟨p.key, [p.value], 1⟩)

/-- C1: the group-by-key stage sorts the intermediate pairs by byte-wise
lexicographic key order and produces groups in strictly ascending key
order; the number of groups equals the number of distinct keys among the
pairs, and each group's value count (both the stored `count` field and the
length of its value sequence) equals the number of intermediate pairs
bearing that group's key. -/
theorem group_by_key_stage_correct (l : List kv_pair_t) :
    (groupKV (sortKV l)).Pairwise (fun g1 g2 => strLt g1.key g2.key) ∧
    (groupKV (sortKV l)).length = (l.map kv_pair_t.key).toFinset.card ∧
    ∀ g ∈ groupKV (sortKV l),
      g.count = l.countP (fun q => decide (q.key = g.key)) ∧
      g.value.length = l.countP (fun q => decide (q.key = g.key)) := by
  refine ⟨groupKV_pairwise _ (sortKV_sorted l), ?_, ?_⟩
  · rw [groupKV_length _ (sortKV_sorted l),
      List.toFinset_eq_of_perm _ _ ((sortKV_perm l).map kv_pair_t.key)]
  · intro g hg
    have hcnt := (groupKV_count_filter _ (sortKV_sorted l) g hg).2
    have hperm := List.Perm.countP_eq (fun q => decide (q.key = g.key))
      (sortKV_perm l)
    refine ⟨hcnt.trans hperm, ?_⟩
    rw [← groupKV_count_eq_length _ g hg]
    exact hcnt.trans hperm

/-- C2: the packer emits exactly one output record per final-buffer entry,
each with a single-element value sequence and `count = 1`; the output is a
permutation of the final buffer (no deduplication or merging, so its length
equals the buffer's), and it is sorted non-decreasing by byte-wise
lexicographic key order. -/
theorem pack_correct (fs : List kv_pair_t) :
    (packOutput fs).length = fs.length ∧
    (∀ r ∈ packOutput fs, r.count = 1 ∧ r.value.length = 1) ∧
    ((packOutput fs).map (fun r => (r.key, r.value))).Perm
      (fs.map (fun p => (p.key, [p.value]))) ∧
    (packOutput fs).Pairwise (fun r1 r2 => strcmp r1.key r2.key ≤ 0) := by
  refine ⟨?_, ?_, ?_, ?_⟩
  · rw [packOutput, List.length_map]
    exact (sortKV_perm fs).length_eq
  · intro r hr
    obtain ⟨p, _, rfl⟩ := List.mem_map.mp hr
    exact ⟨rfl, rfl⟩
  · rw [packOutput, List.map_map]
    exact (sortKV_perm fs).map (fun p => (p.key, [p.value]))
  · rw [packOutput]
    exact List.pairwise_map.mpr ((sortKV_sorted fs).imp (fun h => h))

/-- The per-worker slice size computed by the partition loops of `mr_exec`
(lines 126-131 and 201-206): `base + (t < rem ? 1 : 0)` with `base = N / W`
and `rem = N % W`. -/
def chunkSize (N W t : Nat) : Nat := N / W + if t < N % W then 1 else 0

/-- The `(start, size)` pairs accumulated by the partition loop: `offset`
starts at `0` and advances by each chunk size
(`tasks[t].start = offset; tasks[t].end = offset + chunk_size`). -/
def rangesFrom : Nat → List Nat → List (Nat × Nat)
  | _, [] => []
  | off, s :: rest => (off, s) :: rangesFrom (off + s) rest

/-- The static partition `mr_exec` computes for `N` items and `W` workers. -/
def partitionRanges (N W : Nat) : List (Nat × Nat) :=
  rangesFrom 0 ((List.range W).map (chunkSize N W))

/-- The indices a worker visits: `for (i = start; i < start + size; i++)`. -/
def sliceItems (r : Nat × Nat) : List Nat := List.range' r.1 r.2

theorem rangesFrom_length (sizes : List Nat) :
    ∀ off, (rangesFrom off sizes).length = sizes.length := by
  induction sizes with
  | nil => intro off; rfl
  | cons s rest ih => intro off; simp [rangesFrom, ih]

theorem rangesFrom_flatten (sizes : List Nat) :
    ∀ off, ((rangesFrom off sizes).map sliceItems).flatten
      = List.range' off sizes.sum := by
  induction sizes with
  | nil => intro off; simp [rangesFrom]
  | cons s rest ih =>
    intro off
    rw [rangesFrom, List.map_cons, List.flatten_cons, ih (off + s)]
    have h := List.range'_append off s rest.sum 1
    simp only [one_mul] at h
    rw [List.sum_cons, sliceItems]
    rw [show s + rest.sum = rest.sum + s by omega]
    exact h

theorem rangesFrom_getD (sizes : List Nat) :
    ∀ off t, t < sizes.length →
      (rangesFrom off sizes).getD t (0, 0)
        = (off + (sizes.take t).sum, sizes.getD t 0) := by
  induction sizes with
  | nil => intro off t ht; cases ht
  | cons s rest ih =>
    intro off t ht
    match t with
    | 0 => simp [rangesFrom]
    | t' + 1 =>
      have : t' < rest.length := by simpa using ht
      rw [rangesFrom]
      show (rangesFrom (off + s) rest).getD t' (0, 0) = _
      rw [ih (off + s) t' this]
      simp [List.sum_cons]
      omega

theorem sum_range_indicator (r : Nat) :
    ∀ W, ((List.range W).map (fun t => if t < r then 1 else 0)).sum = min r W := by
  intro W
  induction W with
  | zero => simp
  | succ W' ih =>
    rw [List.range_succ, List.map_append, List.sum_append, ih]
    simp only [List.map_cons, List.map_nil, List.sum_cons, List.sum_nil]
    split_ifs <;> omega

theorem chunkSize_sum (N W : Nat) (hW : 0 < W) :
    ((List.range W).map (chunkSize N W)).sum = N := by
  have hsplit : ∀ l : List Nat,
      (l.map (chunkSize N W)).sum
        = l.length * (N / W) + (l.map (fun t => if t < N % W then 1 else 0)).sum := by
    intro l
    induction l with
    | nil => simp
    | cons x xs ih =>
      simp only [List.map_cons, List.sum_cons, List.length_cons, ih, chunkSize,
        Nat.succ_mul]
      ring
  rw [hsplit, List.length_range, sum_range_indicator]
  have hmod : N % W < W := Nat.mod_lt _ hW
  have hdm := Nat.div_add_mod N W
  omega

theorem ceil_div_of_mod_ne (N W : Nat) (hW : 0 < W) (h : N % W ≠ 0) :
    (N + W - 1) / W = N / W + 1 := by
  have hdm := Nat.div_add_mod N W
  have hmod : N % W < W := Nat.mod_lt _ hW
  have h2 : W * (N / W + 1) = W * (N / W) + W := by ring
  have h1 : N + W - 1 = W * (N / W + 1) + (N % W - 1) := by omega
  rw [h1, Nat.mul_add_div hW]
  have h3 : (N % W - 1) / W = 0 := Nat.div_eq_of_lt (by omega)
  omega

/-- C3: for `N` items and `W ≥ 2` workers, the static partition consists of
`W` contiguous ranges that are disjoint, ordered and cover `[0,N)` exactly
(their concatenated index sets are precisely `0,...,N-1` in order); every
range size is `⌊N/W⌋` or `⌈N/W⌉` with the first `N mod W` ranges getting the
larger size; when `N < W` the trailing ranges are empty, and an empty range
makes its worker iterate over nothing (a no-op). -/
theorem partition_correct (N W : Nat) (hW : 2 ≤ W) :
    (partitionRanges N W).length = W ∧
    ((partitionRanges N W).map sliceItems).flatten = List.range N ∧
    (∀ t, t < W →
      ((partitionRanges N W).getD t (0, 0)).2
        = if t < N % W then (N + W - 1) / W else N / W) ∧
    (N < W → ∀ t, N ≤ t → t < W → ((partitionRanges N W).getD t (0, 0)).2 = 0) ∧
    (∀ r ∈ partitionRanges N W, r.2 = 0 → sliceItems r = []) := by
  have hW0 : 0 < W := by omega
  have hgetD : ∀ t, t < W →
      ((partitionRanges N W).getD t (0, 0)).2 = chunkSize N W t := by
    intro t ht
    rw [partitionRanges, rangesFrom_getD _ 0 t (by simpa using ht)]
    show ((List.range W).map (chunkSize N W)).getD t 0 = chunkSize N W t
    rw [List.getD_eq_getElem?_getD, List.getElem?_map, List.getElem?_range ht]
    rfl
  refine ⟨?_, ?_, ?_, ?_, ?_⟩
  · rw [partitionRanges, rangesFrom_length]
    simp
  · rw [partitionRanges, rangesFrom_flatten, chunkSize_sum N W hW0,
      List.range_eq_range']
  · intro t ht
    rw [hgetD t ht, chunkSize]
    by_cases hc : t < N % W
    · rw [if_pos hc, if_pos hc, ceil_div_of_mod_ne N W hW0 (by omega)]
    · rw [if_neg hc, if_neg hc]
      simp
  · intro hNW t htN htW
    rw [hgetD t htW, chunkSize]
    have h1 : N / W = 0 := Nat.div_eq_of_lt hNW
    have h2 : N % W = N := Nat.mod_eq_of_lt hNW
    rw [h1, h2, if_neg (by omega)]
  · intro r _ h0
    rw [sliceItems, h0]
    rfl

/-- Witness for C3 at `N = 2`, `W = 4` (a case where `N < W`, so the last
two ranges are empty). -/
theorem partition_correct_witness :
    2 ≤ 4 ∧
    ((partitionRanges 2 4).length = 4 ∧
     ((partitionRanges 2 4).map sliceItems).flatten = List.range 2 ∧
     (∀ t, t < 4 →
       ((partitionRanges 2 4).getD t (0, 0)).2
         = if t < 2 % 4 then (2 + 4 - 1) / 4 else 2 / 4) ∧
     (2 < 4 → ∀ t, 2 ≤ t → t < 4 → ((partitionRanges 2 4).getD t (0, 0)).2 = 0) ∧
     (∀ r ∈ partitionRanges 2 4, r.2 = 0 → sliceItems r = [])) :=
  ⟨by decide, partition_correct 2 4 (by decide)⟩

instance : IsAntisymm Str strLt :=
  ⟨fun a b h1 h2 => by
    exfalso
    have := strcmp_neg a b
    unfold strLt at h1 h2
    omega⟩

/-- The ordered list of group keys the reduce stage sees for buffer `l`. -/
def keysOf (l : List kv_pair_t) : List Str :=
  (groupKV (sortKV l)).map mr_out_kv.key

/-- The multiset of values carried by key `k` in buffer `l`. -/
def valsOf (l : List kv_pair_t) (k : Str) : Multiset Str :=
  ((l.filter (fun q => decide (q.key = k))).map kv_pair_t.value : List Str)

/-- The observable outcome of sort-then-group: for each group, its key and
the multiset of its values (value order inside a group is not part of the
engine's contract). -/
def groupsSummary (l : List kv_pair_t) : List (Str × Multiset Str) :=
  (groupKV (sortKV l)).map (fun g => (g.key, (g.value : Multiset Str)))

theorem keysOf_pairwise (l : List kv_pair_t) : (keysOf l).Pairwise strLt :=
  List.pairwise_map.mpr (groupKV_pairwise _ (sortKV_sorted l))

theorem keysOf_mem_iff (l : List kv_pair_t) (a : Str) :
    a ∈ keysOf l ↔ ∃ p ∈ l, p.key = a := by
  constructor
  · intro ha
    obtain ⟨g, hg, rfl⟩ := List.mem_map.mp ha
    obtain ⟨q, hq, hk⟩ := groupKV_key_mem _ g hg
    exact ⟨q, (sortKV_perm l).mem_iff.mp hq, hk⟩
  · rintro ⟨p, hp, rfl⟩
    obtain ⟨g, hg, hk⟩ := mem_key_groupKV (sortKV l) p
      ((sortKV_perm l).mem_iff.mpr hp)
    exact List.mem_map.mpr ⟨g, hg, hk⟩

theorem keysOf_perm_eq {l l' : List kv_pair_t} (h : l.Perm l') :
    keysOf l = keysOf l' := by
  have nd1 : (keysOf l).Nodup := (keysOf_pairwise l).imp strLt_ne
  have nd2 : (keysOf l').Nodup := (keysOf_pairwise l').imp strLt_ne
  have hperm : (keysOf l).Perm (keysOf l') := by
    rw [List.perm_ext_iff_of_nodup nd1 nd2]
    intro a
    rw [keysOf_mem_iff, keysOf_mem_iff]
    constructor
    · rintro ⟨p, hp, rfl⟩
      exact ⟨p, h.mem_iff.mp hp, rfl⟩
    · rintro ⟨p, hp, rfl⟩
      exact ⟨p, h.mem_iff.mpr hp, rfl⟩
  exact List.eq_of_perm_of_sorted hperm (keysOf_pairwise l) (keysOf_pairwise l')

theorem groupsSummary_eq (l : List kv_pair_t) :
    groupsSummary l = (keysOf l).map (fun k => (k, valsOf l k)) := by
  rw [groupsSummary, keysOf, List.map_map]
  refine List.map_congr_left ?_
  intro g hg
  have hval := (groupKV_count_filter _ (sortKV_sorted l) g hg).1
  simp only [Function.comp]
  refine congrArg (fun m => (g.key, m)) ?_
  rw [hval, valsOf]
  exact Multiset.coe_eq_coe.mpr
    (((sortKV_perm l).filter (fun q => decide (q.key = g.key))).map kv_pair_t.value)

/-- C9: sort-then-group is invariant under every permutation of the
intermediate buffer — in particular under whatever interleaving of the
per-worker emission sequences a concurrent map stage produced — so runs
with one map worker and with many yield identical (key, value-multiset)
group sequences entering the reduce stage. -/
theorem group_stage_perm_invariant (l l' : List kv_pair_t) (h : l.Perm l') :
    groupsSummary l = groupsSummary l' := by
  rw [groupsSummary_eq l, groupsSummary_eq l', keysOf_perm_eq h]
  refine List.map_congr_left ?_
  intro k _
  refine congrArg (fun m => (k, m)) ?_
  rw [valsOf, valsOf]
  exact Multiset.coe_eq_coe.mpr
    ((h.filter (fun q => decide (q.key = k))).map kv_pair_t.value)

/-- Witness for C9: the spec's example buffer in two different emission
orders produces the same groups. -/
theorem group_stage_perm_invariant_witness :
    ([⟨[97], [49]⟩, ⟨[98], [50]⟩, ⟨[97], [51]⟩] : List kv_pair_t).Perm
      [⟨[97], [51]⟩, ⟨[97], [49]⟩, ⟨[98], [50]⟩] ∧
    groupsSummary [⟨[97], [49]⟩, ⟨[98], [50]⟩, ⟨[97], [51]⟩]
      = groupsSummary [⟨[97], [51]⟩, ⟨[97], [49]⟩, ⟨[98], [50]⟩] :=
  ⟨by decide, group_stage_perm_invariant _ _ (by decide)⟩

/-- `#define INITIAL_CAP 1024`. -/
def INITIAL_CAP : Nat := 1024

/-- The contents of a `char[n]` destination array after
`strncpy(dst, src, n)`: the first `min (length src) n` bytes of `src`,
zero-padded up to `n` only when `src` (including its terminator) is
shorter.  When `length src ≥ n` no null terminator is written. -/
def strncpyBuf (src : Str) (n : Nat) : List Nat :=
  src.take n ++ List.replicate (n - src.length) 0

/-- One of the two global growable buffers (`inter_kvs` / `final_kvs`):
its stored entries and its current capacity. -/
structure emit_buf where
  data : List kv_pair_t
  cap : Nat
deriving DecidableEq, Repr

/-- Embedding of `mr_emit_i` / `mr_emit_f` (their bodies are identical apart
from the target buffer).  `allocOk` says whether the `realloc` performed at
this call (if the buffer is full) succeeds.  Returns the buffer after the
call and the C return code (`0` success, `-1` failure).  Stored entries are
the raw `char[max]` array contents written by `strncpy`. -/
def mr_emit (allocOk : Bool) (maxK maxV : Nat) (b : emit_buf) (k v : Str) :
    emit_buf × Int :=
  if b.cap ≤ b.data.length then
    if allocOk then
      (⟨b.data ++ [⟨strncpyBuf k maxK, strncpyBuf v maxV⟩],
        if b.cap = 0 then INITIAL_CAP else b.cap * 2⟩, 0)
    else (b, -1)
  else
    (⟨b.data ++ [⟨strncpyBuf k maxK, strncpyBuf v maxV⟩], b.cap⟩, 0)

/-- C4 is refuted by this evaluation (`MAX_KEY_SIZE = 8`, key
`"averylongkey"`): the stored copy is the first 8 bytes of the key, it
contains no null terminator at all, and it is not the first 7 characters
followed by a terminator as the claim states; the emit call stores exactly
this unterminated array. -/
theorem emit_truncation_unterminated :
    strncpyBuf [97, 118, 101, 114, 121, 108, 111, 110, 103, 107, 101, 121] 8
      = [97, 118, 101, 114, 121, 108, 111, 110] ∧
    (0 : Nat) ∉
      strncpyBuf [97, 118, 101, 114, 121, 108, 111, 110, 103, 107, 101, 121] 8 ∧
    strncpyBuf [97, 118, 101, 114, 121, 108, 111, 110, 103, 107, 101, 121] 8
      ≠ [97, 118, 101, 114, 121, 108, 111] ++ [0] ∧
    (mr_emit true 8 8 ⟨[], 0⟩
        [97, 118, 101, 114, 121, 108, 111, 110, 103, 107, 101, 121] [49]).1.data
      = [⟨[97, 118, 101, 114, 121, 108, 111, 110], [49, 0, 0, 0, 0, 0, 0, 0]⟩] := by
  decide

/-- C5: an emit call fails exactly when the buffer is full and the growth
allocation fails; on failure the buffer (entries, count and capacity) is
exactly as before the call, and on success the call appends exactly the one
new (stored) pair after all existing entries. -/
theorem emit_append_atomic (allocOk : Bool) (maxK maxV : Nat) (b : emit_buf)
    (k v : Str) :
    ((mr_emit allocOk maxK maxV b k v).2 = -1 ↔
      (b.cap ≤ b.data.length ∧ allocOk = false)) ∧
    ((mr_emit allocOk maxK maxV b k v).2 = -1 →
      (mr_emit allocOk maxK maxV b k v).1 = b) ∧
    ((mr_emit allocOk maxK maxV b k v).2 = 0 →
      (mr_emit allocOk maxK maxV b k v).1.data
        = b.data ++ [⟨strncpyBuf k maxK, strncpyBuf v maxV⟩]) := by
  unfold mr_emit
  by_cases hfull : b.cap ≤ b.data.length
  · by_cases hok : allocOk
    · rw [if_pos hfull, if_pos hok]
      simp [hfull, hok]
    · rw [if_pos hfull, if_neg hok]
      simp [hfull, hok]
  · rw [if_neg hfull]
    simp [hfull]

/-- Witness for C5: a failing growth call leaves a full one-entry buffer
untouched; a successful call on an empty buffer appends the stored pair. -/
theorem emit_append_atomic_witness :
    (mr_emit false 8 8 ⟨[⟨[97], [49]⟩], 1⟩ [98] [50]).1 = ⟨[⟨[97], [49]⟩], 1⟩ ∧
    (mr_emit true 8 8 ⟨[], 0⟩ [97] [49]).1.data
      = [] ++ [⟨strncpyBuf [97] 8, strncpyBuf [49] 8⟩] :=
  ⟨(emit_append_atomic false 8 8 ⟨[⟨[97], [49]⟩], 1⟩ [98] [50]).2.1 (by decide),
   (emit_append_atomic true 8 8 ⟨[], 0⟩ [97] [49]).2.2 (by decide)⟩

/-- One emission from inside a callback: a realloc (consuming one step of
the allocation oracle) happens only when the buffer is full, exactly as in
`mr_emit_i` / `mr_emit_f`.  The state is (buffer, next oracle tick,
whether some emission has failed so far); the failure flag mirrors the
`-1` return codes that the C workers and orchestrator never look at. -/
def emitStep (alloc : Nat → Bool) (maxK maxV : Nat)
    (st : emit_buf × Nat × Bool) (kv : Str × Str) : emit_buf × Nat × Bool :=
  if st.1.cap ≤ st.1.data.length then
    ((mr_emit (alloc st.2.1) maxK maxV st.1 kv.1 kv.2).1, st.2.1 + 1,
      st.2.2 || decide ((mr_emit (alloc st.2.1) maxK maxV st.1 kv.1 kv.2).2 = -1))
  else
    ((mr_emit true maxK maxV st.1 kv.1 kv.2).1, st.2.1, st.2.2)

/-- All emissions one callback invocation attempts, in order. -/
def emitList (alloc : Nat → Bool) (maxK maxV : Nat)
    (st : emit_buf × Nat × Bool) (pairs : List (Str × Str)) :
    emit_buf × Nat × Bool :=
  pairs.foldl (emitStep alloc maxK maxV) st

/-- The map stage (sequential semantics, `mapper_count <= 1` path): invoke
the map callback once per input record in index order; each callback's
emissions go to the intermediate buffer through `emitStep`. -/
def mapStage (alloc : Nat → Bool) (maxK maxV : Nat)
    (input : List kv_pair_t) (mapf : kv_pair_t → List (Str × Str))
    (st : emit_buf × Nat × Bool) : emit_buf × Nat × Bool :=
  input.foldl (fun st rec => emitList alloc maxK maxV st (mapf rec)) st

/-- Result of a run: `ok out` models `return 0` with `output->kv_lst`
being `NULL` (`none`) or a populated array (`some records`); `fail` models
`return -1`; `crash` models the undefined behaviour of writing through the
unchecked `malloc` result at line 239 (`strncpy` into a null pointer). -/
inductive ExecResult where
  | ok : Option (List mr_out_kv) → ExecResult
  | fail : ExecResult
  | crash : ExecResult
deriving DecidableEq, Repr

/-- Observable outcome of `mr_exec`: the result, how many times the reduce
callback was invoked, and whether some emission inside a callback failed
(information the C code computes per call but then discards). -/
structure ExecOut where
  result : ExecResult
  reduceCalls : Nat
  emitFailed : Bool
deriving DecidableEq, Repr

/-- Embedding of `mr_exec` (sequential path, `mapper_count <= 1` and
`reducer_count <= 1`).  `alloc` is the oracle deciding each dynamic
allocation in program order: the reallocs of full-buffer emits, then the
group array `malloc`, one value-array `malloc` per group, the reallocs of
full-buffer final emits, the output array `malloc`, and finally one
unchecked value `malloc` per output record.  `capI` / `capF` are the
capacities the global buffers retained from earlier runs (their counts are
reset to zero on entry). -/
def mr_exec_model (alloc : Nat → Bool) (maxK maxV capI capF : Nat)
    (input : List kv_pair_t)
    (mapf : kv_pair_t → List (Str × Str))
    (reducef : mr_out_kv → List (Str × Str)) : ExecOut :=
  let m := mapStage alloc maxK maxV input mapf (⟨[], capI⟩, 0, false)
  if m.1.data = [] then
    ⟨.ok none, 0, m.2.2⟩
  else
    let groups := groupKV (sortKV m.1.data)
    if alloc m.2.1 then
      if ∀ i, i < groups.length → alloc (m.2.1 + 1 + i) = true then
        let r := groups.foldl
          (fun st g => emitList alloc maxK maxV st (reducef g))
          (⟨[], capF⟩, m.2.1 + 1 + groups.length, m.2.2)
        if alloc r.2.1 then
          if ∀ i, i < r.1.data.length → alloc (r.2.1 + 1 + i) = true then
            ⟨.ok (some (packOutput r.1.data)), groups.length, r.2.2⟩
          else
            ⟨.crash, groups.length, r.2.2⟩
        else
          ⟨.fail, groups.length, r.2.2⟩
      else
        ⟨.fail, 0, m.2.2⟩
    else
      ⟨.fail, 0, m.2.2⟩

/-- C6: when the map stage leaves the intermediate buffer empty, `mr_exec`
returns the success status with zero output records immediately; zero
groups are formed and the reduce callback is never invoked (the outcome
does not depend on `reducef`, and the reduce-invocation count is zero). -/
theorem exec_no_intermediate_success (alloc : Nat → Bool)
    (maxK maxV capI capF : Nat) (input : List kv_pair_t)
    (mapf : kv_pair_t → List (Str × Str))
    (reducef : mr_out_kv → List (Str × Str))
    (h : (mapStage alloc maxK maxV input mapf (⟨[], capI⟩, 0, false)).1.data = []) :
    mr_exec_model alloc maxK maxV capI capF input mapf reducef
      = ⟨.ok none, 0,
         (mapStage alloc maxK maxV input mapf (⟨[], capI⟩, 0, false)).2.2⟩ ∧
    groupKV (sortKV
      (mapStage alloc maxK maxV input mapf (⟨[], capI⟩, 0, false)).1.data)
      = [] := by
  constructor
  · unfold mr_exec_model
    simp [h]
  · rw [h]
    rw [show sortKV [] = [] from rfl, groupKV]

/-- Witness for C6 at the empty input. -/
theorem exec_no_intermediate_success_witness :
    (mapStage (fun _ => true) 8 8 [] (fun r => [(r.key, r.value)])
      (⟨[], 0⟩, 0, false)).1.data = [] ∧
    (mr_exec_model (fun _ => true) 8 8 0 0 [] (fun r => [(r.key, r.value)])
        (fun g => [(g.key, [50])])
      = ⟨.ok none, 0,
         (mapStage (fun _ => true) 8 8 [] (fun r => [(r.key, r.value)])
           (⟨[], 0⟩, 0, false)).2.2⟩ ∧
     groupKV (sortKV
       (mapStage (fun _ => true) 8 8 [] (fun r => [(r.key, r.value)])
         (⟨[], 0⟩, 0, false)).1.data) = []) :=
  ⟨by decide,
   exec_no_intermediate_success (fun _ => true) 8 8 0 0 []
     (fun r => [(r.key, r.value)]) (fun g => [(g.key, [50])]) (by decide)⟩

/-- C10: with zero intermediate pairs the output list pointer is the null
pointer (`none`), not an allocated empty array (`some []`), so the caller
receives nothing to release. -/
theorem exec_no_intermediate_null_output (alloc : Nat → Bool)
    (maxK maxV capI capF : Nat) (input : List kv_pair_t)
    (mapf : kv_pair_t → List (Str × Str))
    (reducef : mr_out_kv → List (Str × Str))
    (h : (mapStage alloc maxK maxV input mapf (⟨[], capI⟩, 0, false)).1.data = []) :
    (mr_exec_model alloc maxK maxV capI capF input mapf reducef).result
      = .ok none ∧
    (mr_exec_model alloc maxK maxV capI capF input mapf reducef).result
      ≠ .ok (some []) := by
  have h1 : (mr_exec_model alloc maxK maxV capI capF input mapf reducef).result
      = .ok none := by
    unfold mr_exec_model
    simp [h]
  exact ⟨h1, by rw [h1]; simp⟩

/-- Witness for C10: a map callback that emits nothing. -/
theorem exec_no_intermediate_null_output_witness :
    (mapStage (fun _ => true) 8 8 [⟨[97], [49]⟩] (fun _ => [])
      (⟨[], 0⟩, 0, false)).1.data = [] ∧
    ((mr_exec_model (fun _ => true) 8 8 0 0 [⟨[97], [49]⟩] (fun _ => [])
        (fun g => [(g.key, [50])])).result = .ok none ∧
     (mr_exec_model (fun _ => true) 8 8 0 0 [⟨[97], [49]⟩] (fun _ => [])
        (fun g => [(g.key, [50])])).result ≠ .ok (some [])) :=
  ⟨by decide,
   exec_no_intermediate_null_output (fun _ => true) 8 8 0 0 [⟨[97], [49]⟩]
     (fun _ => []) (fun g => [(g.key, [50])]) (by decide)⟩

/-- C7 is refuted on one allocation site: with every allocation succeeding
except the per-output-record value `malloc` (oracle tick 5 in this run),
the run does not report the generic failure status — it writes through the
unchecked null pointer (undefined behaviour, modelled as `crash`).  All
other allocation sites are checked and do abort with `-1`. -/
theorem exec_unchecked_output_value_alloc :
    mr_exec_model (fun n => decide (n ≠ 5)) 8 8 0 0 [⟨[97], [49]⟩]
      (fun r => [(r.key, r.value)]) (fun g => [(g.key, [50])])
      = ⟨.crash, 1, false⟩ ∧
    (⟨.crash, 1, false⟩ : ExecOut).result ≠ .fail := by
  constructor
  · simp [mr_exec_model, mapStage, emitList, emitStep, mr_emit, strncpyBuf,
      groupKV, sortKV, List.insertionSort, List.orderedInsert, cmp_kv, strcmp,
      INITIAL_CAP, packOutput]
  · simp

/-- C8 is refuted: in this run the single map emission fails (the growth
allocation is refused, so `mr_emit_i` returns `-1`), yet `mr_exec` reports
success — the failure is not propagated to the orchestrator. -/
theorem exec_emit_failure_ignored :
    (mr_exec_model (fun _ => false) 8 8 0 0 [⟨[97], [49]⟩]
      (fun r => [(r.key, r.value)]) (fun g => [(g.key, [50])])).emitFailed
      = true ∧
    (mr_exec_model (fun _ => false) 8 8 0 0 [⟨[97], [49]⟩]
      (fun r => [(r.key, r.value)]) (fun g => [(g.key, [50])])).result
      = .ok none ∧
    (mr_exec_model (fun _ => false) 8 8 0 0 [⟨[97], [49]⟩]
      (fun r => [(r.key, r.value)]) (fun g => [(g.key, [50])])).result
      ≠ .fail := by
  refine ⟨by decide, by decide, by decide⟩

/-- C8 amended: an emission failure is reported back to the specific append
call, which returns `-1` and leaves the buffer exactly as it was; but
neither the workers nor the orchestrator consult that code, and `mr_exec`
can still report success for a run in which an emission failed. -/
theorem emit_failure_reported_to_call_site (maxK maxV : Nat) (b : emit_buf)
    (k v : Str) (h : b.cap ≤ b.data.length) :
    (mr_emit false maxK maxV b k v).2 = -1 ∧
    (mr_emit false maxK maxV b k v).1 = b ∧
    (mr_exec_model (fun _ => false) 8 8 0 0 [⟨[97], [49]⟩]
      (fun r => [(r.key, r.value)]) (fun g => [(g.key, [50])])).result
      = .ok none := by
  refine ⟨?_, ?_, by decide⟩
  · simp [mr_emit, h]
  · simp [mr_emit, h]

/-- Witness for the amended C8 at a concrete full buffer. -/
theorem emit_failure_reported_to_call_site_witness :
    (0 : Nat) ≤ 1 ∧
    ((mr_emit false 8 8 ⟨[⟨[97], [49]⟩], 0⟩ [98] [50]).2 = -1 ∧
     (mr_emit false 8 8 ⟨[⟨[97], [49]⟩], 0⟩ [98] [50]).1 = ⟨[⟨[97], [49]⟩], 0⟩ ∧
     (mr_exec_model (fun _ => false) 8 8 0 0 [⟨[97], [49]⟩]
       (fun r => [(r.key, r.value)]) (fun g => [(g.key, [50])])).result
       = .ok none) :=
  ⟨by decide,
   emit_failure_reported_to_call_site 8 8 ⟨[⟨[97], [49]⟩], 0⟩ [98] [50] (by decide)⟩
